import Mathlib

/-
Verification of the deposit-distribution contract (src/src/lib.rs).

The contract state lives in the host key-value storage; we model it as an
explicit record.  Typed storage keys of distinct Rust types (DataKey, the
attendee Identifier, and the u32 sequence index) can never collide, so the
storage is split into separate fields/maps.  Soroban executes one call at a
time and a failing call commits nothing, so every operation is a function
from the pre-state to Except: on error the caller keeps the pre-state.
i128 quantities are modelled as unbounded Int (no claim concerns wrap-around)
except that checked_div's failure cases are kept exactly.
-/

set_option maxHeartbeats 1000000
set_option maxRecDepth 8192

namespace DepositDistribution

/-- Attendee identities (soroban Identifier values) are opaque values with
decidable equality; we model them as naturals. -/
abbrev Ident := Nat

/-- The per-attendee record stored by the contract (struct Attendee). -/
structure Attendee where
  fee : Int
  attended : Bool
  refunded : Bool
deriving Repr, DecidableEq

/-- The ways a contract call can abort (each corresponds to one trap site
in lib.rs, plus TransferFailed from the token collaborator). -/
inductive Err where
  | MissingKey
  | AlreadyInitialized
  | NotAuthorized
  | ForbiddenIdentity
  | AlreadyRegistered
  | NotRegistered
  | AlreadyAttended
  | InvalidRange
  | DivisionByZero
  | TransferFailed
deriving Repr, DecidableEq

/-- First-match lookup in an association list (the storage get). -/
def lookupKV {α β : Type} [DecidableEq α] : List (α × β) → α → Option β
  | [], _ => none
  | (k', v') :: t, k => if k = k' then some v' else lookupKV t k

/-- Update-or-append in an association list (the storage set). -/
def setKV {α β : Type} [DecidableEq α] : List (α × β) → α → β → List (α × β)
  | [], k, v => [(k, v)]
  | (k', v') :: t, k, v => if k = k' then (k, v) :: t else (k', v') :: setKV t k v

/-- Modelled from the spec: the external token contract's balances and
allowances toward this contract (the token wasm is not part of the
repository).  Absent entries read as 0. -/
structure Tok where
  bal : List (Ident × Int)
  allow : List (Ident × Int)
  contractBal : Int
deriving Repr, DecidableEq

def balOf (t : Tok) (k : Ident) : Int := (lookupKV t.bal k).getD 0

def allowOf (t : Tok) (k : Ident) : Int := (lookupKV t.allow k).getD 0

/-- Modelled from the spec: xfer_from debits amount from the source account
into the contract's own balance, consuming allowance; it fails on
insufficient balance or allowance. -/
def xferFromAccountToContract (t : Tok) (src : Ident) (amount : Int) : Except Err Tok :=
  if amount ≤ allowOf t src ∧ amount ≤ balOf t src then
    .ok { bal := setKV t.bal src (balOf t src - amount),
          allow := setKV t.allow src (allowOf t src - amount),
          contractBal := t.contractBal + amount }
  else .error .TransferFailed

/-- Modelled from the spec: xfer pays amount out of the contract's own
balance to an account; it fails on insufficient contract balance. -/
def xferFromContractToAccount (t : Tok) (dst : Ident) (amount : Int) : Except Err Tok :=
  if amount ≤ t.contractBal then
    .ok { t with bal := setKV t.bal dst (balOf t dst + amount),
                 contractBal := t.contractBal - amount }
  else .error .TransferFailed

/-- The whole persistent state of one contract instance: the DataKey entries
(admin, price, token, count, unclaimed), the attendee records keyed by
identity, the sequence-index-to-identity map keyed by u32, and the token
collaborator state. -/
structure CState where
  admin : Option Ident
  price : Option Int
  tokenId : Option Nat
  count : Option Nat
  unclaimed : Option Int
  attendees : List (Ident × Attendee)
  indexMap : List (Nat × Ident)
  tok : Tok
deriving Repr, DecidableEq

/-- Rust's i128 checked_div: none on division by zero (and on the
overflowing i128::MIN / -1 case). -/
def checked_div (a b : Int) : Option Int :=
  if b = 0 then none
  else if a = -(2 : Int) ^ 127 ∧ b = -1 then none
  else some (Int.tdiv a b)

/-- The uninitialized contract over an arbitrary token state. -/
def emptyContract (t : Tok) : CState :=
  { admin := none, price := none, tokenId := none, count := none,
    unclaimed := none, attendees := [], indexMap := [], tok := t }

/-- fn initialize: refuses a second initialization, then writes admin,
price, token, unclaimed = 0 and count = 0. -/
def initialise (s : CState) (admin : Ident) (price : Int) (tokn : Nat) :
    Except Err CState :=
  if s.admin.isSome then .error .AlreadyInitialized
  else .ok { s with admin := some admin, price := some price,
                    tokenId := some tokn, unclaimed := some (0 : Int),
                    count := some (0 : Nat) }

/-- fn deposit: rejects the admin, reads price and token, rejects a second
registration, stores the fresh record, bumps unclaimed by the price, then
debits the price from the depositor.  A failed debit aborts the call and
(host atomicity) commits nothing. -/
def deposit (s : CState) (attendee : Ident) : Except Err CState :=
  match s.admin with
  | none => .error .MissingKey
  | some adm =>
    if attendee = adm then .error .ForbiddenIdentity
    else match s.price, s.tokenId with
      | some p, some _ =>
        if (lookupKV s.attendees attendee).isSome then .error .AlreadyRegistered
        else
          let s1 :=
            { s with attendees := setKV s.attendees attendee ⟨p, false, false⟩ }
          match s1.unclaimed with
          | none => .error .MissingKey
          | some u =>
            let s2 := { s1 with unclaimed := some (u + p) }
            match xferFromAccountToContract s2.tok attendee p with
            | .error e => .error e
            | .ok t => .ok { s2 with tok := t }
      | _, _ => .error .MissingKey

/-- fn attend: admin-gated; rejects the admin as attendee; requires a
registered, not-yet-attended record; flips attended, stores count as this
attendee's sequence index, increments count, and decrements unclaimed by
the price. -/
def attend (s : CState) (invoker : Ident) (attendee : Ident) : Except Err CState :=
  match s.admin with
  | none => .error .MissingKey
  | some adm =>
    if invoker ≠ adm then .error .NotAuthorized
    else if attendee = adm then .error .ForbiddenIdentity
    else match lookupKV s.attendees attendee with
      | none => .error .NotRegistered
      | some a =>
        if a.attended then .error .AlreadyAttended
        else
          let s1 :=
            { s with attendees := setKV s.attendees attendee { a with attended := true } }
          match s1.count with
          | none => .error .MissingKey
          | some c =>
            let s2 := { s1 with indexMap := setKV s1.indexMap c attendee,
                                count := some (c + 1) }
            match s2.unclaimed, s2.price with
            | some u, some p => .ok { s2 with unclaimed := some (u - p) }
            | _, _ => .error .MissingKey

/-- The for-loop of fn withdraw over indices i, i+1, ..., i+n-1: a missing
index entry is skipped; a present entry with a missing attendee record
traps; an unrefunded record is paid the distribution amount out of the
contract balance and marked refunded. -/
def withdrawLoop (s : CState) (d : Int) (i : Nat) (n : Nat) (rc : Nat) :
    Except Err (CState × Nat) :=
  match n with
  | 0 => .ok (s, rc)
  | Nat.succ m =>
    match lookupKV s.indexMap i with
    | none => withdrawLoop s d (i + 1) m rc
    | some k =>
      match lookupKV s.attendees k with
      | none => .error .MissingKey
      | some a =>
        if a.refunded then withdrawLoop s d (i + 1) m rc
        else
          match xferFromContractToAccount s.tok k d with
          | .error e => .error e
          | .ok t =>
            withdrawLoop
              { s with tok := t,
                       attendees := setKV s.attendees k { a with refunded := true } }
              d (i + 1) m (rc + 1)

/-- fn withdraw(high, low): admin-gated; validates the range; reads price,
token, count and unclaimed; computes price + unclaimed `checked_div` count
(trapping when count = 0); then runs the payout loop over [low, high). -/
def withdraw (s : CState) (invoker : Ident) (high : Nat) (low : Nat) :
    Except Err (CState × Nat) :=
  match s.admin with
  | none => .error .MissingKey
  | some adm =>
    if invoker ≠ adm then .error .NotAuthorized
    else if high < low ∨ high - low > 10 then .error .InvalidRange
    else match s.price, s.tokenId, s.count, s.unclaimed with
      | some p, some _, some c, some u =>
        match checked_div u (Int.ofNat c) with
        | none => .error .DivisionByZero
        | some q => withdrawLoop s (p + q) low (high - low) 0
      | _, _, _, _ => .error .MissingKey

/-- One successful contract call. -/
inductive Step : CState → CState → Prop where
  | init {s s' : CState} (a : Ident) (p : Int) (tk : Nat)
      (h : initialise s a p tk = .ok s') : Step s s'
  | dep {s s' : CState} (att : Ident)
      (h : deposit s att = .ok s') : Step s s'
  | att {s s' : CState} (invoker attendee : Ident)
      (h : attend s invoker attendee = .ok s') : Step s s'
  | wd {s s' : CState} (invoker : Ident) (high low rc : Nat)
      (h : withdraw s invoker high low = .ok (s', rc)) : Step s s'

/-- States reachable by any sequence of successful calls, from a fresh
contract over an arbitrary token state. -/
inductive Reachable : CState → Prop where
  | base (t : Tok) : Reachable (emptyContract t)
  | step {s s' : CState} (hr : Reachable s) (hs : Step s s') : Reachable s'

/-- Contribution of one record to the unclaimed pool: its fee while it is
not yet attended. -/
def feeContrib (a : Attendee) : Int := if a.attended then 0 else a.fee

/-- Sum of the fees of the registered attendees that have not attended. -/
def sumUnattendedFees : List (Ident × Attendee) → Int
  | [] => 0
  | kv :: t => feeContrib kv.2 + sumUnattendedFees t

/-- Pairwise relation between an attendee table and a later version of it:
same keys in the same order, same fee, same attended flag, and the
refunded flag only ever moves from false to true. -/
inductive EntriesRel : List (Ident × Attendee) → List (Ident × Attendee) → Prop where
  | nil : EntriesRel [] []
  | cons {k : Ident} {a a' : Attendee} {l l' : List (Ident × Attendee)}
      (hfee : a'.fee = a.fee) (hatt : a'.attended = a.attended)
      (href : a.refunded = true → a'.refunded = true)
      (htail : EntriesRel l l') : EntriesRel ((k, a) :: l) ((k, a') :: l')

/-- The inductive invariant of an initialized contract state. -/
structure InvCore (s : CState) (adm : Ident) (p : Int) (c : Nat) (u : Int) : Prop where
  sum_eq : u = sumUnattendedFees s.attendees
  fee_eq : ∀ kv ∈ s.attendees, (kv : Ident × Attendee).2.fee = p
  ref_att : ∀ kv ∈ s.attendees, (kv : Ident × Attendee).2.refunded = true →
    kv.2.attended = true
  keys_nodup : (s.attendees.map Prod.fst).Nodup
  idx_dom : ∀ i : Nat, i < c ↔ (lookupKV s.indexMap i).isSome = true
  idx_att : ∀ (i : Nat) (k : Ident), lookupKV s.indexMap i = some k →
    ∃ a, lookupKV s.attendees k = some a ∧ a.attended = true
  idx_inj : ∀ (i j : Nat) (k : Ident), lookupKV s.indexMap i = some k →
    lookupKV s.indexMap j = some k → i = j
  att_idx : ∀ (k : Ident) (a : Attendee), lookupKV s.attendees k = some a →
    a.attended = true → ∃ i : Nat, lookupKV s.indexMap i = some k

/-- The inductive invariant: an uninitialized state is still blank; an
initialized state carries price, count and unclaimed and satisfies the
core invariant. -/
def Inv (s : CState) : Prop :=
  match s.admin with
  | none => s.count = none ∧ s.unclaimed = none ∧ s.attendees = [] ∧ s.indexMap = []
  | some adm => ∃ p c u, s.price = some p ∧ s.count = some c ∧ s.unclaimed = some u ∧
      InvCore s adm p c u

/-- Postcondition of the withdraw loop run from s over indices
[lo, lo + n), entering with counter rc and leaving with rc'. -/
structure WPost (s : CState) (s' : CState) (d : Int) (lo n rc rc' : Nat) : Prop where
  frame_admin : s'.admin = s.admin
  frame_price : s'.price = s.price
  frame_token : s'.tokenId = s.tokenId
  frame_count : s'.count = s.count
  frame_uncl : s'.unclaimed = s.unclaimed
  frame_idx : s'.indexMap = s.indexMap
  frame_allow : s'.tok.allow = s.tok.allow
  rc_le : rc ≤ rc'
  entries : EntriesRel s.attendees s'.attendees
  changed_has_idx : ∀ (k : Ident) (a a' : Attendee), lookupKV s.attendees k = some a →
    lookupKV s'.attendees k = some a' → a.refunded = false → a'.refunded = true →
    ∃ i, lo ≤ i ∧ i < lo + n ∧ lookupKV s.indexMap i = some k
  range_refunded : ∀ i : Nat, lo ≤ i → i < lo + n → ∀ k : Ident,
    lookupKV s.indexMap i = some k →
    ∃ a', lookupKV s'.attendees k = some a' ∧ a'.refunded = true
  cbal : s'.tok.contractBal = s.tok.contractBal - ((rc' - rc : Nat) : Int) * d
  paid : ∀ k : Ident, balOf s'.tok k = balOf s.tok k ∨
    (balOf s'.tok k = balOf s.tok k + d ∧
     ∃ a a', lookupKV s.attendees k = some a ∧ a.refunded = false ∧
             lookupKV s'.attendees k = some a' ∧ a'.refunded = true)

/-! Concrete states used by the witnesses: admin 0 initializes at price 200
with token 7, identities 1 and 2 deposit, identity 1 attends, admin
withdraws over [0, 5). -/

def tW0 : Tok := { bal := [(1, 1000), (2, 1000)], allow := [(1, 400), (2, 400)], contractBal := 0 }

def sWA : CState :=
  { admin := some 0, price := some 200, tokenId := some 7, count := some 0,
    unclaimed := some 0, attendees := [], indexMap := [], tok := tW0 }

def sWB : CState :=
  { admin := some 0, price := some 200, tokenId := some 7, count := some 0,
    unclaimed := some 200,
    attendees := [(1, ⟨200, false, false⟩)], indexMap := [],
    tok := { bal := [(1, 800), (2, 1000)], allow := [(1, 200), (2, 400)], contractBal := 200 } }

def sWC : CState :=
  { admin := some 0, price := some 200, tokenId := some 7, count := some 0,
    unclaimed := some 400,
    attendees := [(1, ⟨200, false, false⟩), (2, ⟨200, false, false⟩)], indexMap := [],
    tok := { bal := [(1, 800), (2, 800)], allow := [(1, 200), (2, 200)], contractBal := 400 } }

def sWD : CState :=
  { admin := some 0, price := some 200, tokenId := some 7, count := some 1,
    unclaimed := some 200,
    attendees := [(1, ⟨200, true, false⟩), (2, ⟨200, false, false⟩)], indexMap := [(0, 1)],
    tok := { bal := [(1, 800), (2, 800)], allow := [(1, 200), (2, 200)], contractBal := 400 } }

def sWE : CState :=
  { admin := some 0, price := some 200, tokenId := some 7, count := some 1,
    unclaimed := some 200,
    attendees := [(1, ⟨200, true, true⟩), (2, ⟨200, false, false⟩)], indexMap := [(0, 1)],
    tok := { bal := [(1, 1200), (2, 800)], allow := [(1, 200), (2, 200)], contractBal := 0 } }

/-! Concrete states for the negative-price trace: admin 0 initializes at
price -2, identities 1 and 2 deposit, identity 1 attends; the computed
distribution amount -4 is then strictly below the price -2. -/

def tN0 : Tok := { bal := [], allow := [], contractBal := 0 }

def sNA : CState :=
  { admin := some 0, price := some (-2), tokenId := some 7, count := some 0,
    unclaimed := some 0, attendees := [], indexMap := [], tok := tN0 }

def sNB : CState :=
  { admin := some 0, price := some (-2), tokenId := some 7, count := some 0,
    unclaimed := some (-2),
    attendees := [(1, ⟨-2, false, false⟩)], indexMap := [],
    tok := { bal := [(1, 2)], allow := [(1, 2)], contractBal := -2 } }

def sNC : CState :=
  { admin := some 0, price := some (-2), tokenId := some 7, count := some 0,
    unclaimed := some (-4),
    attendees := [(1, ⟨-2, false, false⟩), (2, ⟨-2, false, false⟩)], indexMap := [],
    tok := { bal := [(1, 2), (2, 2)], allow := [(1, 2), (2, 2)], contractBal := -4 } }

def sND : CState :=
  { admin := some 0, price := some (-2), tokenId := some 7, count := some 1,
    unclaimed := some (-2),
    attendees := [(1, ⟨-2, true, false⟩), (2, ⟨-2, false, false⟩)], indexMap := [(0, 1)],
    tok := { bal := [(1, 2), (2, 2)], allow := [(1, 2), (2, 2)], contractBal := -4 } }

def sNE : CState :=
  { admin := some 0, price := some (-2), tokenId := some 7, count := some 1,
    unclaimed := some (-2),
    attendees := [(1, ⟨-2, true, true⟩), (2, ⟨-2, false, false⟩)], indexMap := [(0, 1)],
    tok := { bal := [(1, -2), (2, 2)], allow := [(1, 2), (2, 2)], contractBal := 0 } }

/-! Association-list lemmas. -/

theorem lookupKV_setKV_self {α β : Type} [DecidableEq α] (l : List (α × β)) (k : α) (v : β) :
    lookupKV (setKV l k v) k = some v := by
  induction l with
  | nil => simp [setKV, lookupKV]
  | cons kv t ih =>
    obtain ⟨k', v'⟩ := kv
    by_cases h : k = k'
    · simp [setKV, lookupKV, h]
    · simp [setKV, lookupKV, h, ih]

theorem lookupKV_setKV_ne {α β : Type} [DecidableEq α] (l : List (α × β)) (k k' : α) (v : β)
    (h : k' ≠ k) : lookupKV (setKV l k v) k' = lookupKV l k' := by
  induction l with
  | nil => simp [setKV, lookupKV, h]
  | cons kv t ih =>
    obtain ⟨k0, v0⟩ := kv
    by_cases hk : k = k0
    · subst hk
      simp [setKV, lookupKV, h]
    · by_cases hk' : k' = k0
      · simp [setKV, lookupKV, hk, hk']
      · simp [setKV, lookupKV, hk, hk', ih]

theorem mem_setKV {α β : Type} [DecidableEq α] {l : List (α × β)} {k : α} {v : β}
    {kv : α × β} (h : kv ∈ setKV l k v) : kv ∈ l ∨ kv = (k, v) := by
  induction l with
  | nil => simp [setKV] at h; simp [h]
  | cons kv0 t ih =>
    obtain ⟨k0, v0⟩ := kv0
    by_cases hk : k = k0
    · subst hk
      simp [setKV] at h
      rcases h with h | h
      · right; simp [h]
      · left; simp [h]
    · simp [setKV, hk] at h
      rcases h with h | h
      · left; simp [h]
      · rcases ih h with h' | h'
        · left; simp [h']
        · right; exact h'

theorem lookupKV_mem {α β : Type} [DecidableEq α] {l : List (α × β)} {k : α} {v : β}
    (h : lookupKV l k = some v) : (k, v) ∈ l := by
  induction l with
  | nil => simp [lookupKV] at h
  | cons kv0 t ih =>
    obtain ⟨k0, v0⟩ := kv0
    by_cases hk : k = k0
    · subst hk
      simp [lookupKV] at h
      simp [h]
    · simp [lookupKV, hk] at h
      simp [ih h]

theorem mem_lookupKV {α β : Type} [DecidableEq α] {l : List (α × β)} {k : α} {v : β}
    (h : (k, v) ∈ l) (hn : (l.map Prod.fst).Nodup) : lookupKV l k = some v := by
  induction l with
  | nil => simp at h
  | cons kv0 t ih =>
    obtain ⟨k0, v0⟩ := kv0
    simp only [List.map_cons, List.nodup_cons] at hn
    rcases List.mem_cons.mp h with h0 | h0
    · rw [Prod.mk.injEq] at h0
      obtain ⟨hk, hv⟩ := h0
      subst hk
      subst hv
      simp [lookupKV]
    · have hk : k ≠ k0 := by
        intro hkk
        subst hkk
        exact hn.1 (List.mem_map_of_mem Prod.fst h0)
      simp [lookupKV, hk, ih h0 hn.2]

theorem lookupKV_eq_none_iff {α β : Type} [DecidableEq α] (l : List (α × β)) (k : α) :
    lookupKV l k = none ↔ k ∉ l.map Prod.fst := by
  induction l with
  | nil => simp [lookupKV]
  | cons kv0 t ih =>
    obtain ⟨k0, v0⟩ := kv0
    by_cases hk : k = k0
    · subst hk
      simp [lookupKV]
    · simp [lookupKV, hk, ih]

theorem keys_setKV_some {α β : Type} [DecidableEq α] {l : List (α × β)} {k : α} {a : β}
    (h : lookupKV l k = some a) (v : β) :
    (setKV l k v).map Prod.fst = l.map Prod.fst := by
  induction l with
  | nil => simp [lookupKV] at h
  | cons kv0 t ih =>
    obtain ⟨k0, v0⟩ := kv0
    by_cases hk : k = k0
    · subst hk
      simp [setKV]
    · simp [lookupKV, hk] at h
      simp [setKV, hk, ih h]

theorem keys_setKV_none {α β : Type} [DecidableEq α] {l : List (α × β)} {k : α}
    (h : lookupKV l k = none) (v : β) :
    (setKV l k v).map Prod.fst = l.map Prod.fst ++ [k] := by
  induction l with
  | nil => simp [setKV]
  | cons kv0 t ih =>
    obtain ⟨k0, v0⟩ := kv0
    by_cases hk : k = k0
    · subst hk
      simp [lookupKV] at h
    · simp [lookupKV, hk] at h
      simp [setKV, hk, ih h]

theorem sum_setKV_none {l : List (Ident × Attendee)} {k : Ident}
    (h : lookupKV l k = none) (v : Attendee) :
    sumUnattendedFees (setKV l k v) = sumUnattendedFees l + feeContrib v := by
  induction l with
  | nil => simp [setKV, sumUnattendedFees]
  | cons kv0 t ih =>
    obtain ⟨k0, v0⟩ := kv0
    by_cases hk : k = k0
    · subst hk
      simp [lookupKV] at h
    · simp [lookupKV, hk] at h
      simp [setKV, hk, sumUnattendedFees, ih h]
      ring

theorem sum_setKV_some {l : List (Ident × Attendee)} {k : Ident} {a : Attendee}
    (h : lookupKV l k = some a) (v : Attendee) :
    sumUnattendedFees (setKV l k v) = sumUnattendedFees l - feeContrib a + feeContrib v := by
  induction l with
  | nil => simp [lookupKV] at h
  | cons kv0 t ih =>
    obtain ⟨k0, v0⟩ := kv0
    by_cases hk : k = k0
    · subst hk
      simp [lookupKV] at h
      subst h
      simp [setKV, sumUnattendedFees]
      ring
    · simp [lookupKV, hk] at h
      simp [setKV, hk, sumUnattendedFees, ih h]
      ring

theorem sum_nonneg_of_fees {l : List (Ident × Attendee)} {p : Int}
    (hf : ∀ kv ∈ l, (kv : Ident × Attendee).2.fee = p) (hp : 0 ≤ p) :
    0 ≤ sumUnattendedFees l := by
  induction l with
  | nil => simp [sumUnattendedFees]
  | cons kv0 t ih =>
    have h0 : feeContrib kv0.2 = 0 ∨ feeContrib kv0.2 = kv0.2.fee := by
      unfold feeContrib
      by_cases hc : kv0.2.attended <;> simp [hc]
    have hfee : kv0.2.fee = p := hf kv0 (by simp)
    have htail : 0 ≤ sumUnattendedFees t := ih (fun kv hkv => hf kv (by simp [hkv]))
    simp only [sumUnattendedFees]
    rcases h0 with h0 | h0 <;> rw [h0] <;> [simpa using htail; exact add_nonneg (hfee ▸ hp) htail]

/-! Lemmas about EntriesRel. -/

theorem entriesRel_refl (l : List (Ident × Attendee)) : EntriesRel l l := by
  induction l with
  | nil => exact .nil
  | cons kv t ih =>
    obtain ⟨k, a⟩ := kv
    exact .cons rfl rfl (fun h => h) ih

theorem entriesRel_trans {l1 l2 l3 : List (Ident × Attendee)}
    (h12 : EntriesRel l1 l2) (h23 : EntriesRel l2 l3) : EntriesRel l1 l3 := by
  induction h12 generalizing l3 with
  | nil => exact h23
  | cons hfee hatt href _ ih =>
    cases h23 with
    | cons hfee' hatt' href' htail' =>
      exact .cons (hfee'.trans hfee) (hatt'.trans hatt)
        (fun h => href' (href h)) (ih htail')

theorem entriesRel_keys {l l' : List (Ident × Attendee)} (h : EntriesRel l l') :
    l.map Prod.fst = l'.map Prod.fst := by
  induction h with
  | nil => rfl
  | cons hfee hatt href _ ih => simp [ih]

theorem entriesRel_sum {l l' : List (Ident × Attendee)} (h : EntriesRel l l') :
    sumUnattendedFees l' = sumUnattendedFees l := by
  induction h with
  | nil => rfl
  | cons hfee hatt href _ ih =>
    simp [sumUnattendedFees, feeContrib, hfee, hatt, ih]

theorem entriesRel_lookup {l l' : List (Ident × Attendee)} (h : EntriesRel l l')
    (k : Ident) :
    (lookupKV l k = none ∧ lookupKV l' k = none) ∨
    ∃ a a', lookupKV l k = some a ∧ lookupKV l' k = some a' ∧
      a'.fee = a.fee ∧ a'.attended = a.attended ∧
      (a.refunded = true → a'.refunded = true) := by
  induction h with
  | nil => left; simp [lookupKV]
  | @cons k0 a a' t t' hfee hatt href _ ih =>
    by_cases hk : k = k0
    · subst hk
      right
      exact ⟨a, a', by simp [lookupKV], by simp [lookupKV], hfee, hatt, href⟩
    · simpa [lookupKV, hk] using ih

theorem entriesRel_setKV {l : List (Ident × Attendee)} {k : Ident} {a : Attendee}
    (h : lookupKV l k = some a) (a' : Attendee)
    (hfee : a'.fee = a.fee) (hatt : a'.attended = a.attended)
    (href : a.refunded = true → a'.refunded = true) :
    EntriesRel l (setKV l k a') := by
  induction l with
  | nil => simp [lookupKV] at h
  | cons kv0 t ih =>
    obtain ⟨k0, v0⟩ := kv0
    by_cases hk : k = k0
    · subst hk
      simp [lookupKV] at h
      subst h
      simpa [setKV] using .cons hfee hatt href (entriesRel_refl t)
    · simp [lookupKV, hk] at h
      simpa [setKV, hk] using .cons rfl rfl (fun hx => hx) (ih h)

/-! The withdraw loop satisfies its postcondition. -/

theorem withdrawLoop_post {d : Int} {n : Nat} : ∀ {s s' : CState} {i rc rc' : Nat},
    withdrawLoop s d i n rc = .ok (s', rc') → WPost s s' d i n rc rc' := by
  induction n with
  | zero =>
    intro s s' i rc rc' h
    simp only [withdrawLoop, Except.ok.injEq, Prod.mk.injEq] at h
    obtain ⟨hs, hrc⟩ := h
    subst hs
    subst hrc
    refine ⟨rfl, rfl, rfl, rfl, rfl, rfl, rfl, Nat.le_refl _, entriesRel_refl _,
      ?_, ?_, by simp, fun k => Or.inl rfl⟩
    · intro k a a' h1 h2 h3 h4
      rw [h1] at h2
      injection h2 with h2
      subst h2
      rw [h3] at h4
      cases h4
    · intro j hj1 hj2
      omega
  | succ m ih =>
    intro s s' i rc rc' h
    cases hidx : lookupKV s.indexMap i with
    | none =>
      simp only [withdrawLoop, hidx] at h
      have W := ih h
      refine ⟨W.frame_admin, W.frame_price, W.frame_token, W.frame_count, W.frame_uncl,
        W.frame_idx, W.frame_allow, W.rc_le, W.entries, ?_, ?_, W.cbal, W.paid⟩
      · intro k a a' h1 h2 h3 h4
        obtain ⟨j, hj1, hj2, hj3⟩ := W.changed_has_idx k a a' h1 h2 h3 h4
        exact ⟨j, by omega, by omega, hj3⟩
      · intro j hj1 hj2 k hk
        rcases Nat.eq_or_lt_of_le hj1 with hji | hji
        · rw [hji] at hidx
          rw [hidx] at hk
          cases hk
        · exact W.range_refunded j hji (by omega) k hk
    | some k =>
      cases hrec : lookupKV s.attendees k with
      | none =>
        simp only [withdrawLoop, hidx, hrec] at h
        exact Except.noConfusion h
      | some a =>
        by_cases href : a.refunded = true
        · simp only [withdrawLoop, hidx, hrec, href, if_true] at h
          have W := ih h
          refine ⟨W.frame_admin, W.frame_price, W.frame_token, W.frame_count, W.frame_uncl,
            W.frame_idx, W.frame_allow, W.rc_le, W.entries, ?_, ?_, W.cbal, W.paid⟩
          · intro k0 a0 a0' h1 h2 h3 h4
            obtain ⟨j, hj1, hj2, hj3⟩ := W.changed_has_idx k0 a0 a0' h1 h2 h3 h4
            exact ⟨j, by omega, by omega, hj3⟩
          · intro j hj1 hj2 k0 hk0
            rcases Nat.eq_or_lt_of_le hj1 with hji | hji
            · rw [hji] at hidx
              rw [hidx] at hk0
              injection hk0 with hk0
              subst hk0
              rcases entriesRel_lookup W.entries k with ⟨hn1, _⟩ | ⟨b, b', hb, hb', _, _, hbr⟩
              · rw [hrec] at hn1
                cases hn1
              · rw [hrec] at hb
                injection hb with hb
                subst hb
                exact ⟨b', hb', hbr href⟩
            · exact W.range_refunded j hji (by omega) k0 hk0
        · have hrefF : a.refunded = false := by
            cases hra : a.refunded
            · rfl
            · exact absurd hra href
          cases hx : xferFromContractToAccount s.tok k d with
          | error e =>
            simp only [withdrawLoop, hidx, hrec, hrefF, Bool.false_eq_true, if_false, hx] at h
            exact Except.noConfusion h
          | ok t =>
            simp only [withdrawLoop, hidx, hrec, hrefF, Bool.false_eq_true, if_false, hx] at h
            have W := ih h
            have ht : t = { bal := setKV s.tok.bal k (balOf s.tok k + d), allow := s.tok.allow, contractBal := s.tok.contractBal - d } := by
              unfold xferFromContractToAccount at hx
              by_cases hcond : d ≤ s.tok.contractBal
              · rw [if_pos hcond] at hx
                injection hx with hx
                exact hx.symm
              · rw [if_neg hcond] at hx
                exact Except.noConfusion hx
            have hS1att : ∀ k0, k0 ≠ k →
                lookupKV (setKV s.attendees k { a with refunded := true }) k0 =
                  lookupKV s.attendees k0 :=
              fun k0 hk0 => lookupKV_setKV_ne _ _ _ _ hk0
            have hS1attK : lookupKV (setKV s.attendees k { a with refunded := true }) k =
                some { a with refunded := true } := lookupKV_setKV_self _ _ _
            have hs'K : ∃ a', lookupKV s'.attendees k = some a' ∧ a'.refunded = true := by
              rcases entriesRel_lookup W.entries k with ⟨hn1, _⟩ | ⟨b, b', hb, hb', _, _, hbr⟩
              · rw [hS1attK] at hn1
                cases hn1
              · rw [hS1attK] at hb
                injection hb with hb
                subst hb
                exact ⟨b', hb', hbr rfl⟩
            refine ⟨W.frame_admin, W.frame_price, W.frame_token, W.frame_count,
              W.frame_uncl, W.frame_idx, ?_, ?_, ?_, ?_, ?_, ?_, ?_⟩
            · rw [W.frame_allow, ht]
            · have := W.rc_le
              omega
            · exact entriesRel_trans
                (entriesRel_setKV hrec { a with refunded := true } rfl rfl (fun _ => rfl))
                W.entries
            · intro k0 a0 a0' h1 h2 h3 h4
              by_cases hk0 : k0 = k
              · subst hk0
                exact ⟨i, Nat.le_refl _, by omega, hidx⟩
              · obtain ⟨j, hj1, hj2, hj3⟩ := W.changed_has_idx k0 a0 a0'
                  (by rw [hS1att k0 hk0]; exact h1) h2 h3 h4
                exact ⟨j, by omega, by omega, hj3⟩
            · intro j hj1 hj2 k0 hk0
              rcases Nat.eq_or_lt_of_le hj1 with hji | hji
              · rw [hji] at hidx
                rw [hidx] at hk0
                injection hk0 with hk0
                subst hk0
                exact hs'K
              · exact W.range_refunded j hji (by omega) k0 hk0
            · have hc1 : s'.tok.contractBal =
                  (s.tok.contractBal - d) - ((rc' - (rc + 1) : Nat) : Int) * d := by
                have := W.cbal
                rw [ht] at this
                exact this
              have hcast : ((rc' - rc : Nat) : Int) = ((rc' - (rc + 1) : Nat) : Int) + 1 := by
                have := W.rc_le
                omega
              rw [hc1, hcast]
              ring
            · intro k0
              have hbalK : balOf t k = balOf s.tok k + d := by
                rw [ht]
                unfold balOf
                simp [lookupKV_setKV_self]
              have hbalNe : ∀ k0, k0 ≠ k → balOf t k0 = balOf s.tok k0 := by
                intro k0 hk0
                rw [ht]
                unfold balOf
                simp [lookupKV_setKV_ne _ _ _ _ hk0]
              rcases W.paid k0 with hleft | ⟨hright, b, b', hb, hbrf, hb', hb'rf⟩
              · by_cases hk0 : k0 = k
                · subst hk0
                  right
                  rw [hleft]
                  exact ⟨hbalK, a, hs'K.choose, hrec, hrefF, hs'K.choose_spec.1,
                    hs'K.choose_spec.2⟩
                · left
                  rw [hleft]
                  exact hbalNe k0 hk0
              · by_cases hk0 : k0 = k
                · subst hk0
                  rw [hS1attK] at hb
                  injection hb with hb
                  rw [← hb] at hbrf
                  cases hbrf
                · right
                  rw [hright, hbalNe k0 hk0]
                  refine ⟨rfl, b, b', ?_, hbrf, hb', hb'rf⟩
                  rw [← hS1att k0 hk0]
                  exact hb

/-- If every index in the processed range either has no entry or points to
an already-refunded record, the loop does nothing. -/
theorem withdrawLoop_noop {d : Int} {n : Nat} : ∀ {s : CState} {i rc : Nat},
    (∀ j, i ≤ j → j < i + n → ∀ k, lookupKV s.indexMap j = some k →
      ∃ a, lookupKV s.attendees k = some a ∧ a.refunded = true) →
    withdrawLoop s d i n rc = .ok (s, rc) := by
  induction n with
  | zero =>
    intro s i rc _
    rfl
  | succ m ih =>
    intro s i rc hall
    cases hidx : lookupKV s.indexMap i with
    | none =>
      simp only [withdrawLoop, hidx]
      exact ih (fun j hj1 hj2 k hk => hall j (by omega) (by omega) k hk)
    | some k =>
      obtain ⟨a, ha, har⟩ := hall i (Nat.le_refl _) (by omega) k hidx
      simp only [withdrawLoop, hidx, ha, har, if_true]
      exact ih (fun j hj1 hj2 k0 hk0 => hall j (by omega) (by omega) k0 hk0)

/-- The loop never aborts with InvalidRange. -/
theorem withdrawLoop_ne_invalid {d : Int} {n : Nat} : ∀ {s : CState} {i rc : Nat},
    withdrawLoop s d i n rc ≠ .error .InvalidRange := by
  induction n with
  | zero =>
    intro s i rc h
    exact Except.noConfusion h
  | succ m ih =>
    intro s i rc h
    cases hidx : lookupKV s.indexMap i with
    | none =>
      simp only [withdrawLoop, hidx] at h
      exact ih h
    | some k =>
      cases hrec : lookupKV s.attendees k with
      | none =>
        simp only [withdrawLoop, hidx, hrec] at h
        injection h with h
        cases h
      | some a =>
        cases hra : a.refunded with
        | true =>
          simp only [withdrawLoop, hidx, hrec, hra, if_true] at h
          exact ih h
        | false =>
          cases hx : xferFromContractToAccount s.tok k d with
          | error e =>
            simp only [withdrawLoop, hidx, hrec, hra, Bool.false_eq_true, if_false, hx] at h
            injection h with h
            rw [h] at hx
            unfold xferFromContractToAccount at hx
            by_cases hcond : d ≤ s.tok.contractBal
            · rw [if_pos hcond] at hx
              exact Except.noConfusion hx
            · rw [if_neg hcond] at hx
              injection hx with hx
              cases hx
          | ok t =>
            simp only [withdrawLoop, hidx, hrec, hra, Bool.false_eq_true, if_false, hx] at h
            exact ih h

/-- Inversion of a successful withdraw call into its guard facts and the
loop run. -/
theorem withdraw_ok_inversion {s s' : CState} {invoker : Ident} {high low : Nat} {rc : Nat}
    (h : withdraw s invoker high low = .ok (s', rc)) :
    ∃ adm p tk c u q, s.admin = some adm ∧ invoker = adm ∧
      ¬(high < low ∨ high - low > 10) ∧
      s.price = some p ∧ s.tokenId = some tk ∧ s.count = some c ∧ s.unclaimed = some u ∧
      checked_div u (Int.ofNat c) = some q ∧
      withdrawLoop s (p + q) low (high - low) 0 = .ok (s', rc) := by
  cases hadm : s.admin with
  | none =>
    simp only [withdraw, hadm] at h
    exact Except.noConfusion h
  | some adm =>
    simp only [withdraw, hadm] at h
    by_cases hinv : invoker = adm
    · have hinv' : ¬invoker ≠ adm := fun hne => hne hinv
      rw [if_neg hinv'] at h
      by_cases hrange : high < low ∨ high - low > 10
      · rw [if_pos hrange] at h
        exact Except.noConfusion h
      · rw [if_neg hrange] at h
        cases hp : s.price with
        | none =>
          simp only [hp] at h
          exact Except.noConfusion h
        | some p =>
          cases htk : s.tokenId with
          | none =>
            simp only [hp, htk] at h
            exact Except.noConfusion h
          | some tk =>
            cases hc : s.count with
            | none =>
              simp only [hp, htk, hc] at h
              exact Except.noConfusion h
            | some c =>
              cases hu : s.unclaimed with
              | none =>
                simp only [hp, htk, hc, hu] at h
                exact Except.noConfusion h
              | some u =>
                simp only [hp, htk, hc, hu] at h
                cases hq : checked_div u (Int.ofNat c) with
                | none =>
                  rw [hq] at h
                  exact Except.noConfusion h
                | some q =>
                  rw [hq] at h
                  exact ⟨adm, p, tk, c, u, q, rfl, hinv, hrange, rfl, rfl, rfl, rfl, hq, h⟩
    · have hinv' : invoker ≠ adm := hinv
      rw [if_pos hinv'] at h
      exact Except.noConfusion h

/-- Inversion of a successful initialise call. -/
theorem initialise_ok_inversion {s s' : CState} {a : Ident} {p : Int} {tk : Nat}
    (h : initialise s a p tk = .ok s') :
    s.admin = none ∧
    s' = { s with admin := some a, price := some p, tokenId := some tk,
                  unclaimed := some (0 : Int), count := some (0 : Nat) } := by
  unfold initialise at h
  cases hadm : s.admin with
  | none =>
    rw [hadm] at h
    simp only [Option.isSome_none, Bool.false_eq_true, if_false] at h
    injection h with h
    exact ⟨rfl, h.symm⟩
  | some adm =>
    rw [hadm] at h
    simp only [Option.isSome_some, if_true] at h
    exact Except.noConfusion h

/-- Inversion of a successful deposit call. -/
theorem deposit_ok_inversion {s s' : CState} {att : Ident}
    (h : deposit s att = .ok s') :
    ∃ adm p tk u t, s.admin = some adm ∧ att ≠ adm ∧
      s.price = some p ∧ s.tokenId = some tk ∧
      lookupKV s.attendees att = none ∧ s.unclaimed = some u ∧
      xferFromAccountToContract s.tok att p = .ok t ∧
      s' = { s with attendees := setKV s.attendees att ⟨p, false, false⟩,
                    unclaimed := some (u + p), tok := t } := by
  cases hadm : s.admin with
  | none =>
    simp only [deposit, hadm] at h
    exact Except.noConfusion h
  | some adm =>
    simp only [deposit, hadm] at h
    by_cases hatt : att = adm
    · rw [if_pos hatt] at h
      exact Except.noConfusion h
    · rw [if_neg hatt] at h
      cases hp : s.price with
      | none =>
        simp only [hp] at h
        exact Except.noConfusion h
      | some p =>
        cases htk : s.tokenId with
        | none =>
          simp only [hp, htk] at h
          exact Except.noConfusion h
        | some tk =>
          simp only [hp, htk] at h
          cases hreg : lookupKV s.attendees att with
          | some b =>
            rw [hreg] at h
            simp only [Option.isSome_some, if_true] at h
            exact Except.noConfusion h
          | none =>
            rw [hreg] at h
            simp only [Option.isSome_none, Bool.false_eq_true, if_false] at h
            cases hu : s.unclaimed with
            | none =>
              simp only [hu] at h
              exact Except.noConfusion h
            | some u =>
              simp only [hu] at h
              cases hx : xferFromAccountToContract s.tok att p with
              | error e =>
                rw [hx] at h
                exact Except.noConfusion h
              | ok t =>
                rw [hx] at h
                injection h with h
                exact ⟨adm, p, tk, u, t, rfl, hatt, rfl, rfl, rfl, rfl, hx, h.symm⟩

/-- Inversion of a successful attend call. -/
theorem attend_ok_inversion {s s' : CState} {invoker att : Ident}
    (h : attend s invoker att = .ok s') :
    ∃ adm a c u p, s.admin = some adm ∧ invoker = adm ∧ att ≠ adm ∧
      lookupKV s.attendees att = some a ∧ a.attended = false ∧
      s.count = some c ∧ s.unclaimed = some u ∧ s.price = some p ∧
      s' = { s with attendees := setKV s.attendees att { a with attended := true },
                    indexMap := setKV s.indexMap c att,
                    count := some (c + 1), unclaimed := some (u - p) } := by
  cases hadm : s.admin with
  | none =>
    simp only [attend, hadm] at h
    exact Except.noConfusion h
  | some adm =>
    simp only [attend, hadm] at h
    by_cases hinv : invoker = adm
    · have hinv' : ¬invoker ≠ adm := fun hne => hne hinv
      rw [if_neg hinv'] at h
      by_cases hatt : att = adm
      · rw [if_pos hatt] at h
        exact Except.noConfusion h
      · rw [if_neg hatt] at h
        cases hreg : lookupKV s.attendees att with
        | none =>
          rw [hreg] at h
          exact Except.noConfusion h
        | some a =>
          rw [hreg] at h
          cases hatd : a.attended with
          | true =>
            simp only [hatd, if_true] at h
            exact Except.noConfusion h
          | false =>
            simp only [hatd, Bool.false_eq_true, if_false] at h
            cases hc : s.count with
            | none =>
              simp only [hc] at h
              exact Except.noConfusion h
            | some c =>
              simp only [hc] at h
              cases hu : s.unclaimed with
              | none =>
                simp only [hu] at h
                exact Except.noConfusion h
              | some u =>
                cases hp : s.price with
                | none =>
                  simp only [hu, hp] at h
                  exact Except.noConfusion h
                | some p =>
                  simp only [hu, hp] at h
                  injection h with h
                  exact ⟨adm, a, c, u, p, rfl, hinv, hatt, rfl, hatd, rfl, rfl, rfl, h.symm⟩
    · have hinv' : invoker ≠ adm := hinv
      rw [if_pos hinv'] at h
      exact Except.noConfusion h

/-! Preservation of the inductive invariant. -/

theorem inv_initialise {s s' : CState} {a : Ident} {p : Int} {tk : Nat}
    (hI : Inv s) (h : initialise s a p tk = .ok s') : Inv s' := by
  obtain ⟨hadm, hs'⟩ := initialise_ok_inversion h
  unfold Inv at hI
  rw [hadm] at hI
  obtain ⟨_, _, hatts, hidxs⟩ := hI
  subst hs'
  unfold Inv
  simp only
  refine ⟨p, 0, 0, rfl, rfl, rfl, ?_⟩
  constructor
  · rw [hatts]
    rfl
  · intro kv hkv
    rw [hatts] at hkv
    cases hkv
  · intro kv hkv
    rw [hatts] at hkv
    cases hkv
  · rw [hatts]
    exact List.nodup_nil
  · intro i
    rw [hidxs]
    simp [lookupKV]
  · intro i k hik
    rw [hidxs] at hik
    cases hik
  · intro i j k hik hjk
    rw [hidxs] at hik
    cases hik
  · intro k a' hka' _
    rw [hatts] at hka'
    cases hka'

theorem inv_deposit {s s' : CState} {att : Ident}
    (hI : Inv s) (h : deposit s att = .ok s') : Inv s' := by
  obtain ⟨adm, p, tk, u, t, hadm, hne, hp, htk, hreg, hu, hx, hs'⟩ :=
    deposit_ok_inversion h
  unfold Inv at hI
  rw [hadm] at hI
  obtain ⟨p0, c0, u0, hp0, hc0, hu0, core⟩ := hI
  rw [hp] at hp0
  injection hp0 with hp0
  rw [hu] at hu0
  injection hu0 with hu0
  subst hp0
  subst hu0
  subst hs'
  unfold Inv
  simp only [hadm]
  refine ⟨p, c0, u + p, hp, hc0, rfl, ?_⟩
  constructor
  · rw [sum_setKV_none hreg]
    rw [core.sum_eq]
    rfl
  · intro kv hkv
    rcases mem_setKV hkv with hold | hnew
    · exact core.fee_eq kv hold
    · rw [hnew]
  · intro kv hkv hr
    rcases mem_setKV hkv with hold | hnew
    · exact core.ref_att kv hold hr
    · rw [hnew] at hr
      cases hr
  · rw [keys_setKV_none hreg]
    have hout : att ∉ s.attendees.map Prod.fst := (lookupKV_eq_none_iff _ _).mp hreg
    simp [List.nodup_append, core.keys_nodup, hout]
  · exact core.idx_dom
  · intro i k hik
    obtain ⟨a, ha, hatt⟩ := core.idx_att i k hik
    have hkne : k ≠ att := by
      intro hk
      rw [hk, hreg] at ha
      cases ha
    exact ⟨a, by rw [lookupKV_setKV_ne _ _ _ _ hkne]; exact ha, hatt⟩
  · exact core.idx_inj
  · intro k a' hka' hatt
    by_cases hk : k = att
    · subst hk
      rw [lookupKV_setKV_self] at hka'
      injection hka' with hka'
      rw [← hka'] at hatt
      cases hatt
    · rw [lookupKV_setKV_ne _ _ _ _ hk] at hka'
      exact core.att_idx k a' hka' hatt

theorem inv_attend {s s' : CState} {invoker att : Ident}
    (hI : Inv s) (h : attend s invoker att = .ok s') : Inv s' := by
  obtain ⟨adm, a, c, u, p, hadm, hinv, hne, hreg, hatd, hc, hu, hp, hs'⟩ :=
    attend_ok_inversion h
  unfold Inv at hI
  rw [hadm] at hI
  obtain ⟨p0, c0, u0, hp0, hc0, hu0, core⟩ := hI
  rw [hp] at hp0
  injection hp0 with hp0
  rw [hc] at hc0
  injection hc0 with hc0
  rw [hu] at hu0
  injection hu0 with hu0
  subst hp0
  subst hc0
  subst hu0
  have hcnone : lookupKV s.indexMap c = none := by
    cases hl : lookupKV s.indexMap c with
    | none => rfl
    | some k =>
      have h1 : (lookupKV s.indexMap c).isSome = true := by rw [hl]; rfl
      have h2 : c < c := (core.idx_dom c).mpr h1
      omega
  have hafee : a.fee = p := core.fee_eq (att, a) (lookupKV_mem hreg)
  subst hs'
  unfold Inv
  simp only [hadm]
  refine ⟨p, c + 1, u - p, hp, rfl, rfl, ?_⟩
  constructor
  · rw [sum_setKV_some hreg]
    rw [core.sum_eq]
    simp [feeContrib, hatd, hafee]
  · intro kv hkv
    rcases mem_setKV hkv with hold | hnew
    · exact core.fee_eq kv hold
    · rw [hnew]
      exact hafee
  · intro kv hkv hr
    rcases mem_setKV hkv with hold | hnew
    · exact core.ref_att kv hold hr
    · rw [hnew]
  · rw [keys_setKV_some hreg]
    exact core.keys_nodup
  · intro i
    by_cases hi : i = c
    · subst hi
      rw [lookupKV_setKV_self]
      simp
    · rw [lookupKV_setKV_ne _ _ _ _ hi]
      rw [← core.idx_dom i]
      omega
  · intro i k hik
    by_cases hi : i = c
    · subst hi
      rw [lookupKV_setKV_self] at hik
      injection hik with hik
      subst hik
      exact ⟨{ a with attended := true }, lookupKV_setKV_self _ _ _, rfl⟩
    · rw [lookupKV_setKV_ne _ _ _ _ hi] at hik
      obtain ⟨b, hb, hbatt⟩ := core.idx_att i k hik
      by_cases hk : k = att
      · subst hk
        rw [hreg] at hb
        injection hb with hb
        rw [← hb] at hbatt
        rw [hatd] at hbatt
        cases hbatt
      · exact ⟨b, by rw [lookupKV_setKV_ne _ _ _ _ hk]; exact hb, hbatt⟩
  · intro i j k hik hjk
    by_cases hi : i = c <;> by_cases hj : j = c
    · rw [hi, hj]
    · subst hi
      rw [lookupKV_setKV_self] at hik
      injection hik with hik
      subst hik
      rw [lookupKV_setKV_ne _ _ _ _ hj] at hjk
      obtain ⟨b, hb, hbatt⟩ := core.idx_att j att hjk
      rw [hreg] at hb
      injection hb with hb
      rw [← hb] at hbatt
      rw [hatd] at hbatt
      cases hbatt
    · subst hj
      rw [lookupKV_setKV_self] at hjk
      injection hjk with hjk
      subst hjk
      rw [lookupKV_setKV_ne _ _ _ _ hi] at hik
      obtain ⟨b, hb, hbatt⟩ := core.idx_att i att hik
      rw [hreg] at hb
      injection hb with hb
      rw [← hb] at hbatt
      rw [hatd] at hbatt
      cases hbatt
    · rw [lookupKV_setKV_ne _ _ _ _ hi] at hik
      rw [lookupKV_setKV_ne _ _ _ _ hj] at hjk
      exact core.idx_inj i j k hik hjk
  · intro k a' hka' hatt
    by_cases hk : k = att
    · subst hk
      exact ⟨c, lookupKV_setKV_self _ _ _⟩
    · rw [lookupKV_setKV_ne _ _ _ _ hk] at hka'
      obtain ⟨i, hi⟩ := core.att_idx k a' hka' hatt
      have hine : i ≠ c := by
        intro hic
        rw [hic, hcnone] at hi
        cases hi
      exact ⟨i, by rw [lookupKV_setKV_ne _ _ _ _ hine]; exact hi⟩

theorem inv_withdraw {s s' : CState} {invoker : Ident} {high low rc : Nat}
    (hI : Inv s) (h : withdraw s invoker high low = .ok (s', rc)) : Inv s' := by
  obtain ⟨adm, p, tk, c, u, q, hadm, hinv, hrange, hp, htk, hc, hu, hq, hloop⟩ :=
    withdraw_ok_inversion h
  have W := withdrawLoop_post hloop
  unfold Inv at hI
  rw [hadm] at hI
  obtain ⟨p0, c0, u0, hp0, hc0, hu0, core⟩ := hI
  rw [hp] at hp0
  injection hp0 with hp0
  rw [hc] at hc0
  injection hc0 with hc0
  rw [hu] at hu0
  injection hu0 with hu0
  subst hp0
  subst hc0
  subst hu0
  have hkeys : s.attendees.map Prod.fst = s'.attendees.map Prod.fst :=
    entriesRel_keys W.entries
  have hnodup' : (s'.attendees.map Prod.fst).Nodup := hkeys ▸ core.keys_nodup
  unfold Inv
  rw [W.frame_admin, hadm]
  refine ⟨p, c, u, by rw [W.frame_price, hp], by rw [W.frame_count, hc],
    by rw [W.frame_uncl, hu], ?_⟩
  constructor
  · rw [entriesRel_sum W.entries]
    exact core.sum_eq
  · intro kv hkv
    have hlk : lookupKV s'.attendees kv.1 = some kv.2 := by
      obtain ⟨k0, v0⟩ := kv
      exact mem_lookupKV hkv hnodup'
    rcases entriesRel_lookup W.entries kv.1 with ⟨_, hn⟩ | ⟨b, b', hb, hb', hbfee, _, _⟩
    · rw [hlk] at hn
      cases hn
    · rw [hlk] at hb'
      injection hb' with hb'
      rw [hb', hbfee]
      exact core.fee_eq (kv.1, b) (lookupKV_mem hb)
  · intro kv hkv hr
    have hlk : lookupKV s'.attendees kv.1 = some kv.2 := by
      obtain ⟨k0, v0⟩ := kv
      exact mem_lookupKV hkv hnodup'
    rcases entriesRel_lookup W.entries kv.1 with ⟨_, hn⟩ | ⟨b, b', hb, hb', _, hbatt, _⟩
    · rw [hlk] at hn
      cases hn
    · rw [hlk] at hb'
      injection hb' with hb'
      subst hb'
      rw [hbatt]
      cases hbr : b.refunded with
      | true => exact core.ref_att (kv.1, b) (lookupKV_mem hb) hbr
      | false =>
        obtain ⟨i, _, _, hik⟩ := W.changed_has_idx kv.1 b kv.2 hb hlk hbr hr
        obtain ⟨b2, hb2, hb2att⟩ := core.idx_att i kv.1 hik
        rw [hb] at hb2
        injection hb2 with hb2
        rw [hb2]
        exact hb2att
  · exact hnodup'
  · intro i
    rw [W.frame_idx]
    exact core.idx_dom i
  · intro i k hik
    rw [W.frame_idx] at hik
    obtain ⟨a, ha, hatt⟩ := core.idx_att i k hik
    rcases entriesRel_lookup W.entries k with ⟨hn, _⟩ | ⟨b, b', hb, hb', _, hbatt, _⟩
    · rw [ha] at hn
      cases hn
    · rw [ha] at hb
      injection hb with hb
      subst hb
      exact ⟨b', hb', by rw [hbatt]; exact hatt⟩
  · intro i j k hik hjk
    rw [W.frame_idx] at hik hjk
    exact core.idx_inj i j k hik hjk
  · intro k a' hka' hatt
    rw [W.frame_idx]
    rcases entriesRel_lookup W.entries k with ⟨_, hn⟩ | ⟨b, b', hb, hb', _, hbatt, _⟩
    · rw [hka'] at hn
      cases hn
    · rw [hka'] at hb'
      injection hb' with hb'
      subst hb'
      exact core.att_idx k b hb (by rw [← hbatt]; exact hatt)

/-- Every step preserves the invariant. -/
theorem inv_step {s s' : CState} (hI : Inv s) (hs : Step s s') : Inv s' := by
  cases hs with
  | init a p tk h => exact inv_initialise hI h
  | dep att h => exact inv_deposit hI h
  | att invoker attendee h => exact inv_attend hI h
  | wd invoker high low rc h => exact inv_withdraw hI h

/-- Every reachable state satisfies the invariant. -/
theorem reachable_inv {s : CState} (hr : Reachable s) : Inv s := by
  induction hr with
  | base t => exact ⟨rfl, rfl, rfl, rfl⟩
  | step _ hs ih => exact inv_step ih hs

/-! The concrete traces are reachable. -/

theorem reachable_sWA : Reachable sWA :=
  (Reachable.base tW0).step (Step.init 0 200 7 (by rfl))

theorem reachable_sWC : Reachable sWC :=
  ((reachable_sWA.step (Step.dep 1 (by rfl))).step (Step.dep 2 (by rfl)))

theorem reachable_sWD : Reachable sWD :=
  reachable_sWC.step (Step.att 0 1 (by rfl))

theorem reachable_sND : Reachable sND :=
  (((((Reachable.base tN0).step (Step.init 0 (-2) 7 (by rfl))).step
    (Step.dep 1 (by rfl))).step (Step.dep 2 (by rfl))).step (Step.att 0 1 (by rfl)))

/-- Claim C1: in every state reachable by successful initialize, deposit,
attend and withdraw calls, the stored UnclaimedPool balance equals the sum
of the fee fields of the registered attendee records whose attended flag is
false. -/
theorem c1_unclaimed_pool_inv (s : CState) (hr : Reachable s) (u : Int)
    (hu : s.unclaimed = some u) : u = sumUnattendedFees s.attendees := by
  have hI := reachable_inv hr
  unfold Inv at hI
  cases hadm : s.admin with
  | none =>
    rw [hadm] at hI
    obtain ⟨_, hun, _, _⟩ := hI
    rw [hun] at hu
    cases hu
  | some adm =>
    rw [hadm] at hI
    obtain ⟨p, c, u0, hp, hc, hu0, core⟩ := hI
    rw [hu] at hu0
    injection hu0 with hu0
    rw [hu0]
    exact core.sum_eq

/-- Claim C1 witness: in the concrete reachable state after two deposits
and one attendance, the pool 200 equals the unattended fee sum. -/
theorem c1_witness : (200 : Int) = sumUnattendedFees sWD.attendees :=
  c1_unclaimed_pool_inv sWD reachable_sWD 200 rfl

/-- Claim C4: in every reachable state the sequence-index map is a
bijection from the indices below Count onto the attended identities, and
every successful attend stores the current Count as the new attendee's
index and then increments Count. -/
theorem c4_sequencer_bijection (s : CState) (hr : Reachable s) :
    (∀ c : Nat, s.count = some c →
      (∀ i : Nat, i < c ↔ ∃ k, lookupKV s.indexMap i = some k) ∧
      (∀ i j k, lookupKV s.indexMap i = some k → lookupKV s.indexMap j = some k → i = j) ∧
      (∀ i k, lookupKV s.indexMap i = some k →
        ∃ a, lookupKV s.attendees k = some a ∧ a.attended = true) ∧
      (∀ k a, lookupKV s.attendees k = some a → a.attended = true →
        ∃ i, i < c ∧ lookupKV s.indexMap i = some k)) ∧
    (∀ (invoker att : Ident) (s' : CState), attend s invoker att = .ok s' →
      ∃ c, s.count = some c ∧ lookupKV s'.indexMap c = some att ∧
        s'.count = some (c + 1)) := by
  have hI := reachable_inv hr
  unfold Inv at hI
  constructor
  · intro c hcount
    cases hadm : s.admin with
    | none =>
      rw [hadm] at hI
      obtain ⟨hcn, _, _, _⟩ := hI
      rw [hcn] at hcount
      cases hcount
    | some adm =>
      rw [hadm] at hI
      obtain ⟨p, c0, u0, hp, hc0, hu0, core⟩ := hI
      rw [hcount] at hc0
      injection hc0 with hc0
      subst hc0
      refine ⟨?_, core.idx_inj, core.idx_att, ?_⟩
      · intro i
        rw [core.idx_dom i]
        exact Option.isSome_iff_exists
      · intro k a hka hatt
        obtain ⟨i, hi⟩ := core.att_idx k a hka hatt
        have hlt : i < c := by
          rw [core.idx_dom i, hi]
          rfl
        exact ⟨i, hlt, hi⟩
  · intro invoker att s' h
    obtain ⟨adm, a, c, u, p, hadm, hinv, hne, hreg, hatd, hc, hu, hp, hs'⟩ :=
      attend_ok_inversion h
    subst hs'
    exact ⟨c, hc, lookupKV_setKV_self _ _ _, rfl⟩

/-- Claim C4 witness: the concrete attend call stores count 0 as the index
of identity 1 and bumps count to 1. -/
theorem c4_witness : lookupKV sWD.indexMap 0 = some 1 ∧ sWD.count = some 1 := by
  obtain ⟨c, hc, hl, hc'⟩ :=
    (c4_sequencer_bijection sWC reachable_sWC).2 0 1 sWD (by rfl)
  have hc2 : some (0 : Nat) = some c := hc
  injection hc2 with hc2
  subst hc2
  exact ⟨hl, hc'⟩

/-- Claim C9: in every reachable state an unattended record is unpaid, and
every single successful call moves each record only forward: the attended
and refunded flags are never reset from true to false. -/
theorem c9_record_lifecycle (s : CState) (hr : Reachable s) :
    (∀ k a, lookupKV s.attendees k = some a → a.attended = false →
      a.refunded = false) ∧
    (∀ s', Step s s' → ∀ k a a', lookupKV s.attendees k = some a →
      lookupKV s'.attendees k = some a' →
      (a.attended = true → a'.attended = true) ∧
      (a.refunded = true → a'.refunded = true)) := by
  have hI := reachable_inv hr
  constructor
  · intro k a hka hatt
    unfold Inv at hI
    cases hadm : s.admin with
    | none =>
      rw [hadm] at hI
      obtain ⟨_, _, hatts, _⟩ := hI
      rw [hatts] at hka
      cases hka
    | some adm =>
      rw [hadm] at hI
      obtain ⟨p, c0, u0, hp, hc0, hu0, core⟩ := hI
      cases hrf : a.refunded with
      | false => rfl
      | true =>
        have := core.ref_att (k, a) (lookupKV_mem hka) hrf
        rw [this] at hatt
        cases hatt
  · intro s' hs k a a' h1 h2
    cases hs with
    | init a0 p0 tk0 h =>
      obtain ⟨_, hs'⟩ := initialise_ok_inversion h
      subst hs'
      rw [h1] at h2
      injection h2 with h2
      subst h2
      exact ⟨fun hx => hx, fun hx => hx⟩
    | dep att h =>
      obtain ⟨adm, p, tk, u, t, hadm, hne, hp, htk, hreg, hu, hx, hs'⟩ :=
        deposit_ok_inversion h
      subst hs'
      by_cases hk : k = att
      · subst hk
        rw [h1] at hreg
        cases hreg
      · rw [lookupKV_setKV_ne _ _ _ _ hk] at h2
        rw [h1] at h2
        injection h2 with h2
        subst h2
        exact ⟨fun hx => hx, fun hx => hx⟩
    | att invoker att h =>
      obtain ⟨adm, a0, c, u, p, hadm, hinv, hne, hreg, hatd, hc, hu, hp, hs'⟩ :=
        attend_ok_inversion h
      subst hs'
      by_cases hk : k = att
      · subst hk
        rw [lookupKV_setKV_self] at h2
        injection h2 with h2
        rw [h1] at hreg
        injection hreg with hreg
        subst hreg
        subst h2
        exact ⟨fun _ => rfl, fun hx => hx⟩
      · rw [lookupKV_setKV_ne _ _ _ _ hk] at h2
        rw [h1] at h2
        injection h2 with h2
        subst h2
        exact ⟨fun hx => hx, fun hx => hx⟩
    | wd invoker high low rc h =>
      obtain ⟨adm, p, tk, c, u, q, hadm, hinv, hrange, hp, htk, hc, hu, hq, hloop⟩ :=
        withdraw_ok_inversion h
      have W := withdrawLoop_post hloop
      rcases entriesRel_lookup W.entries k with ⟨hn, _⟩ | ⟨b, b', hb, hb', _, hbatt, hbr⟩
      · rw [h1] at hn
        cases hn
      · rw [h1] at hb
        injection hb with hb
        subst hb
        rw [h2] at hb'
        injection hb' with hb'
        subst hb'
        exact ⟨fun hx => by rw [hbatt]; exact hx, hbr⟩

/-- Claim C9 witness: applying the invariant half at the concrete reachable
state: identity 2 has not attended, hence is unpaid. -/
theorem c9_witness : (Attendee.mk 200 false false).refunded = false :=
  (c9_record_lifecycle sWD reachable_sWD).1 2 ⟨200, false, false⟩ rfl rfl

/-- A successful checked_div means a nonzero divisor and a truncated
quotient. -/
theorem checked_div_some {a b q : Int} (h : checked_div a b = some q) :
    b ≠ 0 ∧ q = Int.tdiv a b := by
  unfold checked_div at h
  by_cases hb : b = 0
  · rw [if_pos hb] at h
    exact Option.noConfusion h
  · rw [if_neg hb] at h
    by_cases hm : a = -(2 : Int) ^ 127 ∧ b = -1
    · rw [if_pos hm] at h
      exact Option.noConfusion h
    · rw [if_neg hm] at h
      injection h with h
      exact ⟨hb, h.symm⟩

/-- Truncated division of nonnegative machine integers is Nat division. -/
theorem tdiv_natCast (m n : Nat) :
    Int.tdiv (m : Int) (Int.ofNat n) = ((m / n : Nat) : Int) := rfl

/-- Claim C2: a successful withdraw pays each paid account exactly
Price + UnclaimedPool / Count (truncated division) and debits the contract
balance by that amount per payout; with Count = 0 the call never succeeds
(it aborts on the division by zero) and so makes no payout. -/
theorem c2_distribution_amount (s : CState) (invoker : Ident) (high low : Nat)
    (p u : Int) (c : Nat)
    (hp : s.price = some p) (hu : s.unclaimed = some u) (hc : s.count = some c) :
    (c = 0 → ∀ out : CState × Nat, withdraw s invoker high low ≠ .ok out) ∧
    (∀ (s' : CState) (rc : Nat), withdraw s invoker high low = .ok (s', rc) →
      s'.tok.contractBal = s.tok.contractBal - (rc : Int) * (p + Int.tdiv u (Int.ofNat c)) ∧
      (∀ k : Ident, balOf s'.tok k = balOf s.tok k ∨
        balOf s'.tok k = balOf s.tok k + (p + Int.tdiv u (Int.ofNat c)))) := by
  constructor
  · intro hc0 out hok
    obtain ⟨s', rc⟩ := out
    obtain ⟨adm, p', tk', c', u', q, hadm, hinv, hrange, hp', htk', hc', hu', hq, hloop⟩ :=
      withdraw_ok_inversion hok
    rw [hc] at hc'
    injection hc' with hc'
    subst hc'
    rw [hu] at hu'
    injection hu' with hu'
    subst hu'
    obtain ⟨hb, _⟩ := checked_div_some hq
    rw [hc0] at hb
    exact hb rfl
  · intro s' rc hok
    obtain ⟨adm, p', tk', c', u', q, hadm, hinv, hrange, hp', htk', hc', hu', hq, hloop⟩ :=
      withdraw_ok_inversion hok
    rw [hp] at hp'
    injection hp' with hp'
    subst hp'
    rw [hu] at hu'
    injection hu' with hu'
    subst hu'
    rw [hc] at hc'
    injection hc' with hc'
    subst hc'
    obtain ⟨hb, hqe⟩ := checked_div_some hq
    subst hqe
    have W := withdrawLoop_post hloop
    constructor
    · have := W.cbal
      simpa using this
    · intro k
      rcases W.paid k with h1 | ⟨h1, _⟩
      · exact Or.inl h1
      · exact Or.inr h1

/-- Claim C2 witness: the concrete withdraw pays 200 + 200/1 = 400 once. -/
theorem c2_witness :
    sWE.tok.contractBal = sWD.tok.contractBal -
      ((1 : Nat) : Int) * (200 + Int.tdiv 200 (Int.ofNat 1)) :=
  ((c2_distribution_amount sWD 0 5 0 200 200 1 rfl rfl rfl).2 sWE 1 (by rfl)).1

/-- Claim C3: re-running a successful withdraw with the same range on the
resulting state makes no new payouts, returns 0 and leaves the whole state
(balances included) unchanged. -/
theorem c3_withdraw_idempotent (s s' : CState) (invoker : Ident) (high low rc : Nat)
    (h : withdraw s invoker high low = .ok (s', rc)) :
    withdraw s' invoker high low = .ok (s', 0) := by
  obtain ⟨adm, p, tk, c, u, q, hadm, hinv, hrange, hp, htk, hc, hu, hq, hloop⟩ :=
    withdraw_ok_inversion h
  have W := withdrawLoop_post hloop
  have hadm' : s'.admin = some adm := by rw [W.frame_admin, hadm]
  simp only [withdraw, hadm']
  have hinv' : ¬invoker ≠ adm := fun hne => hne hinv
  rw [if_neg hinv', if_neg hrange]
  have hp' : s'.price = some p := by rw [W.frame_price, hp]
  have htk' : s'.tokenId = some tk := by rw [W.frame_token, htk]
  have hc' : s'.count = some c := by rw [W.frame_count, hc]
  have hu' : s'.unclaimed = some u := by rw [W.frame_uncl, hu]
  simp only [hp', htk', hc', hu', hq]
  exact withdrawLoop_noop (fun j hj1 hj2 k hk => by
    rw [W.frame_idx] at hk
    exact W.range_refunded j hj1 hj2 k hk)

/-- Claim C3 witness: re-running the concrete successful withdraw returns
0 and the same state. -/
theorem c3_witness : withdraw sWE 0 5 0 = .ok (sWE, 0) :=
  c3_withdraw_idempotent sWD sWE 0 5 0 1 (by rfl)

/-- Claim C10: a successful withdraw only flips refunded flags from false
to true, and only for records whose sequence index lies in [low, high);
admin, price, token, count, unclaimed, the index map and every record's fee
and attended flag are untouched, and no record is created or deleted. -/
theorem c10_withdraw_frame (s s' : CState) (invoker : Ident) (high low rc : Nat)
    (h : withdraw s invoker high low = .ok (s', rc)) :
    s'.admin = s.admin ∧ s'.price = s.price ∧ s'.tokenId = s.tokenId ∧
    s'.count = s.count ∧ s'.unclaimed = s.unclaimed ∧ s'.indexMap = s.indexMap ∧
    (∀ k, lookupKV s'.attendees k = none ↔ lookupKV s.attendees k = none) ∧
    (∀ k a a', lookupKV s.attendees k = some a → lookupKV s'.attendees k = some a' →
      a'.fee = a.fee ∧ a'.attended = a.attended ∧
      (a'.refunded = a.refunded ∨
        (a.refunded = false ∧ a'.refunded = true ∧
          ∃ i, low ≤ i ∧ i < high ∧ lookupKV s.indexMap i = some k))) := by
  obtain ⟨adm, p, tk, c, u, q, hadm, hinv, hrange, hp, htk, hc, hu, hq, hloop⟩ :=
    withdraw_ok_inversion h
  have W := withdrawLoop_post hloop
  refine ⟨W.frame_admin, W.frame_price, W.frame_token, W.frame_count, W.frame_uncl,
    W.frame_idx, ?_, ?_⟩
  · intro k
    rcases entriesRel_lookup W.entries k with ⟨h1, h2⟩ | ⟨b, b', hb, hb', _, _, _⟩
    · rw [h1, h2]
    · rw [hb, hb']
      simp
  · intro k a a' h1 h2
    rcases entriesRel_lookup W.entries k with ⟨hn, _⟩ | ⟨b, b', hb, hb', hbfee, hbatt, hbr⟩
    · rw [h1] at hn
      cases hn
    · rw [h1] at hb
      injection hb with hb
      subst hb
      rw [h2] at hb'
      injection hb' with hb'
      subst hb'
      refine ⟨hbfee, hbatt, ?_⟩
      cases har : a.refunded with
      | true =>
        left
        exact hbr har
      | false =>
        cases har' : a'.refunded with
        | false =>
          left
          rfl
        | true =>
          right
          refine ⟨rfl, rfl, ?_⟩
          obtain ⟨i, hi1, hi2, hi3⟩ := W.changed_has_idx k a a' h1 h2 har har'
          exact ⟨i, hi1, by omega, hi3⟩

/-- Claim C10 witness: the concrete withdraw leaves unclaimed unchanged. -/
theorem c10_witness : sWE.unclaimed = sWD.unclaimed :=
  (c10_withdraw_frame sWD sWE 0 5 0 1 (by rfl)).2.2.2.2.1

/-- Claim C5 counterexample: the source has no InsufficientDistribution
check at all.  In the reachable state sND (initialization price -2, two
deposits, one attendance) the distribution amount -2 + (-2)/1 = -4 is
strictly below the price -2, yet withdraw succeeds and performs one
payout instead of failing. -/
theorem c5_counterexample :
    Reachable sND ∧ sND.price = some (-2) ∧
    ((-2 : Int) + Int.tdiv (-2) (Int.ofNat 1) < -2) ∧
    withdraw sND 0 1 0 = .ok (sNE, 1) :=
  ⟨reachable_sND, rfl, by decide, by rfl⟩

/-- Claim C5 amended: withdraw performs no InsufficientDistribution check
and will pay out even when the distribution amount is below the price (see
the counterexample, which needs a negative initialization price); however,
in every reachable state whose price is nonnegative the distribution
amount Price + UnclaimedPool / Count is automatically at least Price, so
no payout below Price can happen there. -/
theorem c5_no_insufficient_check (s : CState) (hr : Reachable s) (p u : Int) (c : Nat)
    (hp : s.price = some p) (hpos : 0 ≤ p) (hu : s.unclaimed = some u)
    (hc : s.count = some c) :
    p ≤ p + Int.tdiv u (Int.ofNat c) := by
  have hI := reachable_inv hr
  unfold Inv at hI
  cases hadm : s.admin with
  | none =>
    rw [hadm] at hI
    obtain ⟨_, hun, _, _⟩ := hI
    rw [hun] at hu
    cases hu
  | some adm =>
    rw [hadm] at hI
    obtain ⟨p0, c0, u0, hp0, hc0, hu0, core⟩ := hI
    rw [hp] at hp0
    injection hp0 with hp0
    rw [hu] at hu0
    injection hu0 with hu0
    subst hp0
    subst hu0
    have h0u : 0 ≤ u := by
      rw [core.sum_eq]
      exact sum_nonneg_of_fees core.fee_eq hpos
    obtain ⟨m, rfl⟩ := Int.eq_ofNat_of_zero_le h0u
    have hdiv : Int.tdiv (m : Int) (Int.ofNat c) = ((m / c : Nat) : Int) := tdiv_natCast m c
    rw [hdiv]
    exact le_add_of_nonneg_right (Int.natCast_nonneg _)

/-- Claim C5 witness for the amended statement, at the nonnegative-price
concrete reachable state. -/
theorem c5_witness : (200 : Int) ≤ 200 + Int.tdiv 200 (Int.ofNat 1) :=
  c5_no_insufficient_check sWD reachable_sWD 200 200 1 rfl (by decide) rfl rfl

/-- Claim C6 counterexample: in the reachable freshly initialized state
(Count = 0), withdraw over the empty range low = high = 0 does not return
0: it aborts with the division by zero, because the distribution amount is
computed before the loop. -/
theorem c6_counterexample :
    Reachable sWA ∧ withdraw sWA 0 0 0 = .error .DivisionByZero :=
  ⟨reachable_sWA, by rfl⟩

/-- Claim C6 amended: in any initialized state with Count different from 0,
the admin's withdraw over the empty range low = high = 0 returns 0, makes
no transfer and leaves the state unchanged; with Count = 0 even the empty
range aborts with DivisionByZero (see the counterexample). -/
theorem c6_empty_range (s : CState) (adm : Ident) (p : Int) (tk : Nat) (c : Nat) (u : Int)
    (hadm : s.admin = some adm) (hp : s.price = some p) (htk : s.tokenId = some tk)
    (hc : s.count = some c) (hcz : c ≠ 0) (hu : s.unclaimed = some u) :
    withdraw s adm 0 0 = .ok (s, 0) := by
  simp only [withdraw, hadm]
  have hinv' : ¬adm ≠ adm := fun hne => hne rfl
  rw [if_neg hinv']
  have hrange : ¬((0 : Nat) < 0 ∨ (0 : Nat) - 0 > 10) := by omega
  rw [if_neg hrange]
  simp only [hp, htk, hc, hu]
  have hq : checked_div u (Int.ofNat c) = some (Int.tdiv u (Int.ofNat c)) := by
    unfold checked_div
    have hb : Int.ofNat c ≠ 0 := by
      rw [Int.ofNat_eq_natCast]
      intro hb0
      apply hcz
      exact_mod_cast hb0
    rw [if_neg hb]
    have hm : ¬(u = -(2 : Int) ^ 127 ∧ Int.ofNat c = -1) := by
      rintro ⟨_, hm2⟩
      have := Int.natCast_nonneg c
      rw [Int.ofNat_eq_natCast] at hm2
      rw [hm2] at this
      omega
    rw [if_neg hm]
  rw [hq]
  rfl

/-- Claim C6 witness for the amended statement: empty-range withdraw on the
concrete reachable state with Count = 1 returns 0 and the same state. -/
theorem c6_witness : withdraw sWD 0 0 0 = .ok (sWD, 0) :=
  c6_empty_range sWD 0 200 7 1 200 rfl rfl rfl rfl (by decide) rfl

/-- Claim C7: an admin withdraw with high less than low or high - low above
10 fails with InvalidRange (committing nothing), and with a valid range
the call never fails with InvalidRange. -/
theorem c7_range_validation (s : CState) (adm : Ident) (high low : Nat)
    (hadm : s.admin = some adm) :
    ((high < low ∨ high - low > 10) → withdraw s adm high low = .error .InvalidRange) ∧
    (¬(high < low ∨ high - low > 10) →
      withdraw s adm high low ≠ .error .InvalidRange) := by
  have hinv' : ¬adm ≠ adm := fun hne => hne rfl
  constructor
  · intro hrange
    simp only [withdraw, hadm]
    rw [if_neg hinv', if_pos hrange]
  · intro hrange hbad
    simp only [withdraw, hadm] at hbad
    rw [if_neg hinv', if_neg hrange] at hbad
    cases hp : s.price with
    | none =>
      simp only [hp] at hbad
      injection hbad with hbad
      cases hbad
    | some p =>
      cases htk : s.tokenId with
      | none =>
        simp only [hp, htk] at hbad
        injection hbad with hbad
        cases hbad
      | some tk =>
        cases hc : s.count with
        | none =>
          simp only [hp, htk, hc] at hbad
          injection hbad with hbad
          cases hbad
        | some c =>
          cases hu : s.unclaimed with
          | none =>
            simp only [hp, htk, hc, hu] at hbad
            injection hbad with hbad
            cases hbad
          | some u =>
            simp only [hp, htk, hc, hu] at hbad
            cases hq : checked_div u (Int.ofNat c) with
            | none =>
              rw [hq] at hbad
              injection hbad with hbad
              cases hbad
            | some q =>
              rw [hq] at hbad
              exact withdrawLoop_ne_invalid hbad

/-- Claim C7 witness: high 0 < low 5 is rejected with InvalidRange, and the
valid pair high 5, low 0 is not rejected with InvalidRange. -/
theorem c7_witness :
    withdraw sWA 0 0 5 = .error .InvalidRange ∧
    withdraw sWA 0 5 0 ≠ .error .InvalidRange :=
  ⟨(c7_range_validation sWA 0 0 5 rfl).1 (by decide),
   (c7_range_validation sWA 0 5 0 rfl).2 (by decide)⟩

/-- Claim C8: when the token debit of the price fails (insufficient
balance or allowance), deposit fails as a whole with TransferFailed; since
a failing call returns no state (host atomicity), no attendee record is
created and UnclaimedPool is unchanged. -/
theorem c8_deposit_allornothing (s : CState) (att adm : Ident) (p : Int) (tk : Nat)
    (u : Int)
    (hadm : s.admin = some adm) (hne : att ≠ adm) (hp : s.price = some p)
    (htk : s.tokenId = some tk) (hreg : lookupKV s.attendees att = none)
    (hu : s.unclaimed = some u)
    (hfail : ¬(p ≤ allowOf s.tok att ∧ p ≤ balOf s.tok att)) :
    deposit s att = .error .TransferFailed := by
  simp only [deposit, hadm]
  rw [if_neg hne]
  simp only [hp, htk, hreg, Option.isSome_none, Bool.false_eq_true, if_false, hu]
  have hx : xferFromAccountToContract s.tok att p = .error .TransferFailed := by
    unfold xferFromAccountToContract
    rw [if_neg hfail]
  rw [hx]

/-- Claim C8 witness: identity 3 has no balance or allowance, so its
deposit fails with TransferFailed and commits nothing. -/
theorem c8_witness : deposit sWA 3 = .error .TransferFailed :=
  c8_deposit_allornothing sWA 3 0 200 7 0 rfl (by decide) rfl rfl rfl rfl (by decide)

end DepositDistribution
